import Mathlib

/-!
Verification of the mind-map graph engine in `src/components/mindmap.py`.

The Python module keeps a mind map as a list of edges (Python tuples of node
labels) plus a derived node list.  Free text produced by a language model is
scanned with two regular expressions

  pattern1 = (add|delete)\("([^()"]+)",\s*"([^()"]+)"\)
  pattern2 = (delete)\("([^()"]+)"\)

and the matches are classified into new edges, pending edge removals (a set of
frozensets) and pending node removals (a set of labels).  The candidate list
(`new_edges` alone when `replace`, otherwise `self.edges + new_edges`) is then
walked, admitting the first occurrence of each unordered pair that is not
removed; finally the code stores `list(tuple(a) for a in added)` where `added`
is a Python `set` of frozensets.

Modelling notes, each tied to the source:
* Python tuples of strings are modelled as `List String`; `frozenset(e)` is
  `List.toFinset`.
* The scan of each regular expression is modelled character by character
  (`matchTwo`, `matchOne`, `findallPos`); both patterns are deterministic
  maximal-munch matchers, so backtracking never changes the outcome.
* Python's `\s` is modelled by `isSpaceChar`, covering the Unicode white-space
  set that CPython's `re` uses for `str` patterns.
* Iterating a Python `set` (`for a in added`, and `tuple(frozenset)`) yields
  its elements in a hash-dependent, implementation-defined order.  The
  deterministic part of the computation is the list of admitted unordered
  pairs (`reconcile`); the final stored list is modelled by the relation
  `IsEnumOf`, which holds for exactly the lists the Python code can produce:
  some enumeration of the admitted set, each pair rendered as a duplicate-free
  tuple of its elements.
-/

set_option maxHeartbeats 1000000

/-- Characters allowed inside a quoted argument: the regex class `[^()"]`. -/
def isArgChar (c : Char) : Bool := !(c == '(' || c == ')' || c == '"')

/-- Python's `\s` character class for `str` patterns (Unicode white space). -/
def isSpaceChar (c : Char) : Bool :=
  decide (c.toNat = 32 ∨ (9 ≤ c.toNat ∧ c.toNat ≤ 13) ∨ (28 ≤ c.toNat ∧ c.toNat ≤ 31) ∨
    c.toNat = 133 ∨ c.toNat = 160 ∨ c.toNat = 5760 ∨ (8192 ≤ c.toNat ∧ c.toNat ≤ 8202) ∨
    c.toNat = 8232 ∨ c.toNat = 8233 ∨ c.toNat = 8239 ∨ c.toNat = 8287 ∨ c.toNat = 12288)

/-- Consume an exact literal character sequence from the front of `s`. -/
def eatLit : List Char → List Char → Option (List Char)
  | [], s => some s
  | _ :: _, [] => none
  | c :: cs, d :: s => if d = c then eatLit cs s else none

/-- Match the `\("([^()"]+)",\s*"([^()"]+)"\)` tail of `pattern1` at the front
of `s`, returning the two captured arguments and the unconsumed rest.  Both
`[^()"]+` captures and the `\s*` gap are maximal munches; because the
character after each run is then required to be a specific character that the
class excludes, a backtracking regex engine accepts exactly the same way. -/
def matchArgs2 (s : List Char) : Option ((List Char × List Char) × List Char) :=
  match eatLit ['(', '"'] s with
  | none => none
  | some s1 =>
    let a := s1.takeWhile isArgChar
    let s2 := s1.dropWhile isArgChar
    if a = [] then none else
    match eatLit ['"', ','] s2 with
    | none => none
    | some s3 =>
      let s4 := s3.dropWhile isSpaceChar
      match eatLit ['"'] s4 with
      | none => none
      | some s5 =>
        let b := s5.takeWhile isArgChar
        let s6 := s5.dropWhile isArgChar
        if b = [] then none else
        match eatLit ['"', ')'] s6 with
        | none => none
        | some s7 => some ((a, b), s7)

/-- The `delete` alternative of `pattern1` at the front of `s`. -/
def matchDel2 (s : List Char) : Option ((String × List Char × List Char) × List Char) :=
  match eatLit ['d', 'e', 'l', 'e', 't', 'e'] s with
  | none => none
  | some s1 =>
    match matchArgs2 s1 with
    | none => none
    | some ((a, b), r) => some (("delete", a, b), r)

/-- `pattern1 = (add|delete)\("([^()"]+)",\s*"([^()"]+)"\)` matched at the
front of `s`.  The alternation tries `add` first, then `delete`; the two
literals differ in their first character, so the order is immaterial. -/
def matchTwo (s : List Char) : Option ((String × List Char × List Char) × List Char) :=
  match eatLit ['a', 'd', 'd'] s with
  | some s1 =>
    match matchArgs2 s1 with
    | some ((a, b), r) => some (("add", a, b), r)
    | none => matchDel2 s
  | none => matchDel2 s

/-- `pattern2 = (delete)\("([^()"]+)"\)` matched at the front of `s`. -/
def matchOne (s : List Char) : Option (List Char × List Char) :=
  match eatLit ['d', 'e', 'l', 'e', 't', 'e', '(', '"'] s with
  | none => none
  | some s1 =>
    let a := s1.takeWhile isArgChar
    let s2 := s1.dropWhile isArgChar
    if a = [] then none else
    match eatLit ['"', ')'] s2 with
    | none => none
    | some s3 => some (a, s3)

/-- One step of `re.findall`: scan left to right, report each match with its
start position and length, and resume after the end of a match.  Fuel makes
the recursion structural; `findallPos` supplies fuel `s.length`, which both
matchers (each consuming at least one character on success) never exhaust. -/
def findallPosFuel (m : List Char → Option (α × List Char)) :
    Nat → Nat → List Char → List (Nat × Nat × α)
  | 0, _, _ => []
  | _ + 1, _, [] => []
  | fuel + 1, pos, c :: rest =>
    match m (c :: rest) with
    | some (x, r) =>
      let k := (c :: rest).length - r.length
      (pos, k, x) :: findallPosFuel m fuel (pos + k) r
    | none => findallPosFuel m fuel (pos + 1) rest

/-- All matches of `m` in `s`, left to right, with positions and lengths. -/
def findallPos (m : List Char → Option (α × List Char)) (s : List Char) :
    List (Nat × Nat × α) :=
  findallPosFuel m s.length 0 s

/-- `re.findall(pattern1, output)`: spans and captures of two-argument
directives, in order of appearance. -/
def twoMatches (t : String) : List (Nat × Nat × (String × List Char × List Char)) :=
  findallPos matchTwo t.data

/-- `re.findall(pattern2, output)`: spans and captures of one-argument
directives, in order of appearance. -/
def oneMatches (t : String) : List (Nat × Nat × List Char) :=
  findallPos matchOne t.data

/-- A raw directive match, as the tuple `re.findall` returns: either
`(op, a, b)` from `pattern1` or `("delete", a)` from `pattern2`. -/
inductive Directive where
  | two (op : String) (a b : String)
  | one (a : String)
deriving DecidableEq

/-- `matches = re.findall(pattern1, output) + re.findall(pattern2, output)`:
all two-argument matches as a first group, then all one-argument matches. -/
def directives (t : String) : List Directive :=
  (twoMatches t).map (fun m => Directive.two m.2.2.1 m.2.2.2.1.asString m.2.2.2.2.asString) ++
  (oneMatches t).map (fun m => Directive.one m.2.2.asString)

/-- The classification accumulator: `new_edges` (a list of tuples),
`remove_edges` (a set of frozensets) and `remove_nodes` (a set of labels). -/
structure Classified where
  newEdges : List (List String)
  removeEdges : Finset (Finset String)
  removeNodes : Finset String
deriving DecidableEq

/-- One iteration of the classification loop in `parse_and_include_edges`
(mindmap.py lines 156-170).  For a two-capture match `args` has length 2, so
the Python guard `add or (op == "delete" and len(args) == 2)` is
`op == "add" or op == "delete"`; a one-capture match falls to the `else`
branch, `remove_nodes.add(args[0])`. -/
def classifyStep (acc : Classified) : Directive → Classified
  | Directive.two op a b =>
    if op = "add" ∨ op = "delete" then
      if a = b then acc
      else if op = "add" then { acc with newEdges := acc.newEdges ++ [[a, b]] }
      else { acc with removeEdges := insert {a, b} acc.removeEdges }
    else
      { acc with removeNodes := insert a acc.removeNodes }
  | Directive.one a => { acc with removeNodes := insert a acc.removeNodes }

/-- The whole classification loop over the match list. -/
def classify (ms : List Directive) : Classified :=
  ms.foldl classifyStep ⟨[], ∅, ∅⟩

/-- The dedup-and-filter walk of `parse_and_include_edges` (lines 179-184),
returning the unordered pairs in the order they are admitted into `added`.
The guard mirrors `nodes in added or nodes & remove_nodes or nodes in
remove_edges` (a nonempty intersection is truthy). -/
def reconcileGo (removeE : Finset (Finset String)) (removeN : Finset String) :
    List (List String) → Finset (Finset String) → List (Finset String)
  | [], _ => []
  | e :: rest, added =>
    let ns := e.toFinset
    if ns ∈ added ∨ (ns ∩ removeN).Nonempty ∨ ns ∈ removeE then
      reconcileGo removeE removeN rest added
    else
      ns :: reconcileGo removeE removeN rest (insert ns added)

/-- Lines 172-184: candidate selection plus the walk.  The result is the list
of admitted unordered pairs, in admission order (prior edges first when
`replace` is false). -/
def reconcile (current newE : List (List String)) (removeE : Finset (Finset String))
    (removeN : Finset String) (replace : Bool) : List (Finset String) :=
  reconcileGo removeE removeN (if replace then newE else current ++ newE) ∅

/-- Parse `t` and compute the admitted unordered pairs against `current`:
the deterministic content of `parse_and_include_edges`. -/
def reconcilePairs (current : List (List String)) (t : String) (replace : Bool) :
    List (Finset String) :=
  let c := classify (directives t)
  reconcile current c.newEdges c.removeEdges c.removeNodes replace

/-- `out` is a possible value of `list(tuple(a) for a in added)` when the
admitted pairs are `pairs`: iterating the Python `set` yields each element
exactly once in a hash-dependent order, and `tuple` of a frozenset lists its
elements, each once, in a hash-dependent order. -/
def IsEnumOf (out : List (List String)) (pairs : List (Finset String)) : Prop :=
  List.Perm (out.map List.toFinset) pairs ∧ ∀ e ∈ out, e.Nodup

instance (out : List (List String)) (pairs : List (Finset String)) :
    Decidable (IsEnumOf out pairs) := by
  unfold IsEnumOf; infer_instance

/-- `out` is a possible committed edge list of
`parse_and_include_edges(output := t, replace)` run on current edges
`current`. -/
def CommitRel (current : List (List String)) (t : String) (replace : Bool)
    (out : List (List String)) : Prop :=
  IsEnumOf out (reconcilePairs current t replace)

instance (current : List (List String)) (t : String) (replace : Bool)
    (out : List (List String)) : Decidable (CommitRel current t replace out) := by
  unfold CommitRel; infer_instance

/-- `self.nodes = list(set(n for e in self.edges for n in e))`, as the set it
enumerates. -/
def nodesOf (edges : List (List String)) : Finset String :=
  edges.foldr (fun e acc => e.toFinset ∪ acc) ∅

/-- A conversation turn (`Message` dataclass).  Python's `__post_init__`
dedents and strips the content; the normalized text is never inspected by any
property below, so contents are carried verbatim. -/
structure Message where
  role : String
  content : String
deriving DecidableEq

/-- The `MindMap` object together with the piece of `st.session_state`
(`last_expanded`) that the component mutates.  `self.nodes` is stored by the
code as `list(set(...))`; it is modelled by the set that list enumerates.
`self.conversation` is an attribute that `__init__` never creates — it first
exists after `ask_for_initial_graph` assigns it (line 111); the field is
`none` while the attribute is unset, `some` the stored transcript once it
exists. -/
structure MindMapState where
  edges : List (List String)
  nodes : Finset String
  conversation : Option (List Message)
  lastExpanded : Option String
deriving DecidableEq

/-- `MindMap.__init__(edges=None, nodes=None)` (mindmap.py lines 75-78):
each argument defaults independently; nodes are NOT derived from edges, and
`self.conversation` is left unset (reading it before the first
`ask_for_initial_graph` raises `AttributeError`). -/
def mindMapInit (edges : Option (List (List String))) (nodes : Option (Finset String)) :
    MindMapState :=
  { edges := edges.getD [], nodes := nodes.getD ∅, conversation := none,
    lastExpanded := none }

/-- The state produced by committing a parse result: lines 186-188 store the
enumerated edge list and recompute `self.nodes` from it.  Both generate paths
assign `self.conversation` (lines 111 and 134) before parsing, so the
committed state always carries the attribute. -/
def commitState (out : List (List String))
    (conversation : List Message) (lastExpanded : Option String) : MindMapState :=
  { edges := out, nodes := nodesOf out, conversation := some conversation,
    lastExpanded := lastExpanded }

/-- `MindMap._delete_node` (lines 190-202): filter out edges whose frozenset
contains the node, recompute nodes, append a synthetic user turn.  The edge
filter and node recomputation (lines 196-197) happen first; if the
conversation attribute is still unset, line 198 then raises, leaving it unset
with the edges and nodes already reassigned — hence `Option.map` for the
append. -/
def deleteNode (s : MindMapState) (node : String) : MindMapState :=
  let edges := s.edges.filter (fun e => decide (node ∉ e.toFinset))
  { edges := edges, nodes := nodesOf edges,
    conversation := s.conversation.map
      (fun conv => conv ++ [⟨"user", "delete(\"" ++ node ++ "\")"⟩]),
    lastExpanded := s.lastExpanded }

/-- Modelled from the spec: the fixed preamble transcript (system prompt,
instruction prompt and worked example conversation) imported from
`prompts.system_prompts`, a module not under `src/`.  Its contents are opaque
placeholders; no claim below inspects them. -/
def startConversation : List Message :=
  [⟨"system", "MINDMAP_SYSTEM_PROMPT"⟩, ⟨"user", "MINDMAP_INSTRUCTION_PROMPT"⟩,
   ⟨"user", "MINDMAP_EXAMPLE_USER"⟩, ⟨"assistant", "MINDMAP_EXAMPLE_ASSISTANT"⟩]

/-- The user turn built by `ask_for_initial_graph` (dedent and strip applied
to the f-string). -/
def restartMsg (query : String) : Message :=
  ⟨"user", "Great, now ignore all previous nodes and restart from scratch. I now want you do the following:\n\n" ++ query⟩

/-- The user turn built by the `selected_node` branch of
`ask_for_extended_graph`. -/
def expandMsg (n : String) : Message :=
  ⟨"user", "add new edges to new nodes, starting from the node \"" ++ n ++ "\""⟩

/-- `MindMap.ask_for_initial_graph(query)` (lines 97-112), with the Mistral
call abstracted into its returned text `gen`: the conversation is rebuilt from
the preamble (discarding the previous transcript), the assistant reply is
appended, and the parse commits with `replace=True`. -/
def AskInitRel (s : MindMapState) (query gen : String) (s2 : MindMapState) : Prop :=
  ∃ out, CommitRel s.edges gen true out ∧
    s2 = commitState out
      (startConversation ++ [restartMsg query, ⟨"assistant", gen⟩]) s.lastExpanded

/-- `MindMap.ask_for_extended_graph(selected_node, text)` (lines 114-135),
with the Mistral call abstracted into its returned text `gen`.  With both
arguments `None` the method returns at once (before touching the
conversation); with `selected_node` set the `text` argument is never read;
otherwise `text` is appended verbatim.  The parse commits with
`replace=False`.  Both non-trivial branches read `self.conversation` first
(lines 125 and 132): on a fresh object, where the attribute is unset, they
raise `AttributeError` before mutating anything, so no committed state is
related — the relation requires `s.conversation = some conv`. -/
def AskExtRel (s : MindMapState) (sel txt : Option String) (gen : String)
    (s2 : MindMapState) : Prop :=
  match sel, txt with
  | none, none => s2 = s
  | some n, _ =>
    ∃ conv out, s.conversation = some conv ∧ CommitRel s.edges gen false out ∧
      s2 = commitState out
        (conv ++ [expandMsg n, ⟨"assistant", gen⟩]) (some n)
  | none, some tx =>
    ∃ conv out, s.conversation = some conv ∧ CommitRel s.edges gen false out ∧
      s2 = commitState out
        (conv ++ [⟨"user", tx⟩, ⟨"assistant", gen⟩]) s.lastExpanded

/-- A matcher that, on success, consumes a nonempty prefix. -/
def Consuming (m : List Char → Option (α × List Char)) : Prop :=
  ∀ s x r, m s = some (x, r) → ∃ sp, s = sp ++ r ∧ sp ≠ []

/-- The first-occurrence deduplication of a list of unordered pairs: the
spec-side description of the walk ("keep the first occurrence of each
unordered pair, drop exact duplicates"), against which the implementation
walk with empty removal sets is compared. -/
def dedupPairsFirst : List (Finset String) → Finset (Finset String) → List (Finset String)
  | [], _ => []
  | p :: rest, seen =>
    if p ∈ seen then dedupPairsFirst rest seen
    else p :: dedupPairsFirst rest (insert p seen)

/-! ### Character-class and literal lemmas -/

theorem isArgChar_ne {c : Char} (h : isArgChar c = true) :
    c ≠ '(' ∧ c ≠ ')' ∧ c ≠ '"' := by
  simp only [isArgChar, Bool.not_eq_true', Bool.or_eq_false_iff, beq_eq_false_iff_ne,
    ne_eq] at h
  exact ⟨h.1.1, h.1.2, h.2⟩

theorem isSpaceChar_ne {c : Char} (h : isSpaceChar c = true) :
    c ≠ '(' ∧ c ≠ ')' ∧ c ≠ '"' := by
  simp only [isSpaceChar, decide_eq_true_eq] at h
  refine ⟨?_, ?_, ?_⟩ <;> rintro rfl <;> revert h <;> decide

theorem eatLit_eq : ∀ (lit s r : List Char), eatLit lit s = some r → s = lit ++ r := by
  intro lit
  induction lit with
  | nil =>
    intro s r h
    simp only [eatLit, Option.some.injEq] at h
    simp [h]
  | cons c cs ih =>
    intro s r h
    cases s with
    | nil => simp [eatLit] at h
    | cons d s' =>
      simp only [eatLit] at h
      by_cases hd : d = c
      · rw [if_pos hd] at h
        subst hd
        simpa using ih s' r h
      · rw [if_neg hd] at h
        exact absurd h (by simp)

/-! ### Matcher decomposition lemmas

Each successful match is shown to decompose its input into the exact matched
span followed by the unconsumed rest, with the captured runs consisting of the
corresponding character classes. -/

theorem matchArgs2_eq {s a b r : List Char}
    (h : matchArgs2 s = some ((a, b), r)) :
    ∃ ws, s = '(' :: '"' :: (a ++ '"' :: ',' :: (ws ++ '"' :: (b ++ '"' :: ')' :: r))) ∧
      a ≠ [] ∧ b ≠ [] ∧ (∀ c ∈ a, isArgChar c = true) ∧ (∀ c ∈ b, isArgChar c = true) ∧
      ∀ c ∈ ws, isSpaceChar c = true := by
  unfold matchArgs2 at h
  split at h
  · exact absurd h (by simp)
  next s1 h1 =>
    dsimp only at h
    split at h
    · exact absurd h (by simp)
    next ha =>
      split at h
      · exact absurd h (by simp)
      next s3 h3 =>
        split at h
        · exact absurd h (by simp)
        next s5 h5 =>
          split at h
          · exact absurd h (by simp)
          next hb =>
            split at h
            · exact absurd h (by simp)
            next s7 h7 =>
              simp only [Option.some.injEq, Prod.mk.injEq] at h
              obtain ⟨⟨rfl, rfl⟩, rfl⟩ := h
              have e1 := eatLit_eq _ _ _ h1
              have e3 := eatLit_eq _ _ _ h3
              have e5 := eatLit_eq _ _ _ h5
              have e7 := eatLit_eq _ _ _ h7
              have t1 := List.takeWhile_append_dropWhile (p := isArgChar) (l := s1)
              have t3 := List.takeWhile_append_dropWhile (p := isSpaceChar) (l := s3)
              have t5 := List.takeWhile_append_dropWhile (p := isArgChar) (l := s5)
              refine ⟨s3.takeWhile isSpaceChar, ?_, ha, hb,
                fun c hc => List.mem_takeWhile_imp hc,
                fun c hc => List.mem_takeWhile_imp hc,
                fun c hc => List.mem_takeWhile_imp hc⟩
              calc s = ['(', '"'] ++ s1 := e1
                _ = ['(', '"'] ++ (s1.takeWhile isArgChar ++ s1.dropWhile isArgChar) := by
                      rw [t1]
                _ = ['(', '"'] ++ (s1.takeWhile isArgChar ++ (['"', ','] ++ s3)) := by rw [e3]
                _ = ['(', '"'] ++ (s1.takeWhile isArgChar ++ (['"', ','] ++
                      (s3.takeWhile isSpaceChar ++ s3.dropWhile isSpaceChar))) := by rw [t3]
                _ = ['(', '"'] ++ (s1.takeWhile isArgChar ++ (['"', ','] ++
                      (s3.takeWhile isSpaceChar ++ (['"'] ++ s5)))) := by rw [e5]
                _ = ['(', '"'] ++ (s1.takeWhile isArgChar ++ (['"', ','] ++
                      (s3.takeWhile isSpaceChar ++ (['"'] ++
                      (s5.takeWhile isArgChar ++ s5.dropWhile isArgChar))))) := by rw [t5]
                _ = ['(', '"'] ++ (s1.takeWhile isArgChar ++ (['"', ','] ++
                      (s3.takeWhile isSpaceChar ++ (['"'] ++
                      (s5.takeWhile isArgChar ++ (['"', ')'] ++ s7)))))) := by rw [e7]
                _ = '(' :: '"' :: (s1.takeWhile isArgChar ++ '"' :: ',' ::
                      (s3.takeWhile isSpaceChar ++ '"' ::
                      (s5.takeWhile isArgChar ++ '"' :: ')' :: s7))) := by simp

theorem matchDel2_eq {s : List Char} {op : String} {a b r : List Char}
    (h : matchDel2 s = some ((op, a, b), r)) :
    op = "delete" ∧
    ∃ ws, s = ['d', 'e', 'l', 'e', 't', 'e'] ++
        '(' :: '"' :: (a ++ '"' :: ',' :: (ws ++ '"' :: (b ++ '"' :: ')' :: r))) ∧
      a ≠ [] ∧ b ≠ [] ∧ (∀ c ∈ a, isArgChar c = true) ∧ (∀ c ∈ b, isArgChar c = true) ∧
      ∀ c ∈ ws, isSpaceChar c = true := by
  unfold matchDel2 at h
  split at h
  · exact absurd h (by simp)
  next s1 h1 =>
    split at h
    · exact absurd h (by simp)
    next a' b' r' h2 =>
      simp only [Option.some.injEq, Prod.mk.injEq] at h
      obtain ⟨⟨rfl, rfl, rfl⟩, rfl⟩ := h
      obtain ⟨ws, hs, hna, hnb, hca, hcb, hcw⟩ := matchArgs2_eq h2
      exact ⟨rfl, ws, by rw [eatLit_eq _ _ _ h1, hs], hna, hnb, hca, hcb, hcw⟩

theorem matchTwo_eq {s : List Char} {op : String} {a b r : List Char}
    (h : matchTwo s = some ((op, a, b), r)) :
    ∃ opc ws,
      ((op = "add" ∧ opc = ['a', 'd', 'd']) ∨
        (op = "delete" ∧ opc = ['d', 'e', 'l', 'e', 't', 'e'])) ∧
      s = opc ++ '(' :: '"' :: (a ++ '"' :: ',' :: (ws ++ '"' :: (b ++ '"' :: ')' :: r))) ∧
      a ≠ [] ∧ b ≠ [] ∧ (∀ c ∈ a, isArgChar c = true) ∧ (∀ c ∈ b, isArgChar c = true) ∧
      ∀ c ∈ ws, isSpaceChar c = true := by
  unfold matchTwo at h
  split at h
  next s1 h1 =>
    split at h
    next a' b' r' h2 =>
      simp only [Option.some.injEq, Prod.mk.injEq] at h
      obtain ⟨⟨rfl, rfl, rfl⟩, rfl⟩ := h
      obtain ⟨ws, hs, hna, hnb, hca, hcb, hcw⟩ := matchArgs2_eq h2
      exact ⟨['a', 'd', 'd'], ws, Or.inl ⟨rfl, rfl⟩,
        by rw [eatLit_eq _ _ _ h1, hs], hna, hnb, hca, hcb, hcw⟩
    next h2 =>
      obtain ⟨hop, ws, hs, hna, hnb, hca, hcb, hcw⟩ := matchDel2_eq h
      exact ⟨['d', 'e', 'l', 'e', 't', 'e'], ws, Or.inr ⟨hop, rfl⟩, hs,
        hna, hnb, hca, hcb, hcw⟩
  next h1 =>
    obtain ⟨hop, ws, hs, hna, hnb, hca, hcb, hcw⟩ := matchDel2_eq h
    exact ⟨['d', 'e', 'l', 'e', 't', 'e'], ws, Or.inr ⟨hop, rfl⟩, hs,
      hna, hnb, hca, hcb, hcw⟩

theorem matchOne_eq {s x r : List Char} (h : matchOne s = some (x, r)) :
    s = ['d', 'e', 'l', 'e', 't', 'e', '(', '"'] ++ (x ++ '"' :: ')' :: r) ∧
      x ≠ [] ∧ ∀ c ∈ x, isArgChar c = true := by
  unfold matchOne at h
  split at h
  · exact absurd h (by simp)
  next s1 h1 =>
    dsimp only at h
    split at h
    · exact absurd h (by simp)
    next ha =>
      split at h
      · exact absurd h (by simp)
      next s3 h3 =>
        simp only [Option.some.injEq, Prod.mk.injEq] at h
        obtain ⟨rfl, rfl⟩ := h
        have e1 := eatLit_eq _ _ _ h1
        have e3 := eatLit_eq _ _ _ h3
        have t1 := List.takeWhile_append_dropWhile (p := isArgChar) (l := s1)
        refine ⟨?_, ha, fun c hc => List.mem_takeWhile_imp hc⟩
        calc s = ['d', 'e', 'l', 'e', 't', 'e', '(', '"'] ++ s1 := e1
          _ = ['d', 'e', 'l', 'e', 't', 'e', '(', '"'] ++
              (s1.takeWhile isArgChar ++ s1.dropWhile isArgChar) := by rw [t1]
          _ = ['d', 'e', 'l', 'e', 't', 'e', '(', '"'] ++
              (s1.takeWhile isArgChar ++ (['"', ')'] ++ s3)) := by rw [e3]
          _ = ['d', 'e', 'l', 'e', 't', 'e', '(', '"'] ++
              (s1.takeWhile isArgChar ++ '"' :: ')' :: s3) := by simp

/-! ### Span facts: positions of key characters inside a matched span -/

theorem drop_decomp_getElem {t sp r : List Char} {p k : Nat}
    (hd : t.drop p = sp ++ r) (hk : k < sp.length) : t[p + k]? = sp[k]? := by
  rw [← List.getElem?_drop, hd, List.getElem?_append, if_pos hk]

theorem getElem?_unique_char {pre post : List Char} {ch : Char}
    (hpre : ∀ c ∈ pre, c ≠ ch) (hpost : ∀ c ∈ post, c ≠ ch) :
    ∀ k, (pre ++ ch :: post)[k]? = some ch ↔ k = pre.length := by
  intro k
  constructor
  · intro h
    rcases lt_trichotomy k pre.length with hk | hk | hk
    · rw [List.getElem?_append, if_pos hk] at h
      exact absurd rfl (hpre ch (List.getElem?_mem h))
    · exact hk
    · rw [List.getElem?_append, if_neg (by omega)] at h
      obtain ⟨j, hj⟩ : ∃ j, k - pre.length = j + 1 := ⟨k - pre.length - 1, by omega⟩
      rw [hj] at h
      simp only [List.getElem?_cons_succ] at h
      exact absurd rfl (hpost ch (List.getElem?_mem h))
  · rintro rfl
    rw [List.getElem?_append, if_neg (by omega)]
    simp

theorem getElem?_last_concat {front : List Char} {ch : Char} :
    (front ++ [ch])[(front ++ [ch]).length - 1]? = some ch := by
  have : (front ++ [ch]).length - 1 = front.length := by simp
  rw [this, List.getElem?_concat_length]

theorem matchTwo_span {s : List Char} {op : String} {a b r : List Char}
    (h : matchTwo s = some ((op, a, b), r)) :
    ∃ sp oplen,
      s = sp ++ r ∧
      (oplen = 3 ∨ oplen = 6) ∧
      (oplen = 3 → sp[0]? = some 'a') ∧
      oplen + 9 ≤ sp.length ∧
      (∀ k, sp[k]? = some '(' ↔ k = oplen) ∧
      (∀ k < oplen, sp[k]? ≠ some ')') ∧
      sp[sp.length - 1]? = some ')' := by
  obtain ⟨opc, ws, hop, hs, hna, hnb, hca, hcb, hcw⟩ := matchTwo_eq h
  refine ⟨opc ++ '(' :: '"' :: (a ++ '"' :: ',' :: (ws ++ '"' :: (b ++ ['"', ')']))),
    opc.length, ?_, ?_, ?_, ?_, ?_, ?_, ?_⟩
  · rw [hs]; simp
  · rcases hop with ⟨_, rfl⟩ | ⟨_, rfl⟩ <;> simp
  · intro h3
    rcases hop with ⟨_, rfl⟩ | ⟨_, rfl⟩
    · simp
    · simp at h3
  · have h1 : 1 ≤ a.length := List.length_pos.mpr hna
    have h2 : 1 ≤ b.length := List.length_pos.mpr hnb
    simp only [List.length_append, List.length_cons]
    omega
  · have hpre : ∀ c ∈ opc, c ≠ '(' := by
      rcases hop with ⟨_, rfl⟩ | ⟨_, rfl⟩ <;> decide
    have hpost : ∀ c ∈ '"' :: (a ++ '"' :: ',' :: (ws ++ '"' :: (b ++ ['"', ')']))),
        c ≠ '(' := by
      intro c hc
      simp only [List.mem_cons, List.mem_append] at hc
      rcases hc with rfl | hc
      · decide
      rcases hc with hc | hc
      · exact (isArgChar_ne (hca c hc)).1
      rcases hc with rfl | hc
      · decide
      rcases hc with rfl | hc
      · decide
      rcases hc with hc | hc
      · exact (isSpaceChar_ne (hcw c hc)).1
      rcases hc with rfl | hc
      · decide
      rcases hc with hc | hc
      · exact (isArgChar_ne (hcb c hc)).1
      rcases hc with rfl | hc
      · decide
      · simp at hc
        rw [hc]
        decide
    intro k
    exact getElem?_unique_char hpre hpost k
  · intro k hk hcontra
    have hk2 : k < opc.length + 10 := by omega
    rw [List.getElem?_append, if_pos hk] at hcontra
    have hmem := List.getElem?_mem hcontra
    rcases hop with ⟨_, rfl⟩ | ⟨_, rfl⟩ <;> revert hmem <;> decide
  · have hrw : opc ++ '(' :: '"' :: (a ++ '"' :: ',' :: (ws ++ '"' :: (b ++ ['"', ')']))) =
        (opc ++ '(' :: '"' :: (a ++ '"' :: ',' :: (ws ++ '"' :: (b ++ ['"'])))) ++ [')'] := by
      simp
    rw [hrw]
    exact getElem?_last_concat

theorem matchOne_span {s x r : List Char} (h : matchOne s = some (x, r)) :
    ∃ sp,
      s = sp ++ r ∧
      11 ≤ sp.length ∧
      (∀ k, sp[k]? = some '(' ↔ k = 6) ∧
      (∀ k < 6, sp[k]? ≠ some ')') ∧
      sp[3]? = some 'e' ∧
      sp[sp.length - 1]? = some ')' := by
  obtain ⟨hs, hnx, hcx⟩ := matchOne_eq h
  refine ⟨['d', 'e', 'l', 'e', 't', 'e', '(', '"'] ++ (x ++ ['"', ')']),
    ?_, ?_, ?_, ?_, ?_, ?_⟩
  · rw [hs]; simp
  · have h1 : 1 ≤ x.length := List.length_pos.mpr hnx
    simp only [List.length_append, List.length_cons]
    omega
  · have hrw : ['d', 'e', 'l', 'e', 't', 'e', '(', '"'] ++ (x ++ ['"', ')']) =
        ['d', 'e', 'l', 'e', 't', 'e'] ++ '(' :: ('"' :: (x ++ ['"', ')'])) := by simp
    rw [hrw]
    have hpre : ∀ c ∈ ['d', 'e', 'l', 'e', 't', 'e'], c ≠ '(' := by decide
    have hpost : ∀ c ∈ '"' :: (x ++ ['"', ')']), c ≠ '(' := by
      intro c hc
      simp only [List.mem_cons, List.mem_append] at hc
      rcases hc with rfl | hc
      · decide
      rcases hc with hc | hc
      · exact (isArgChar_ne (hcx c hc)).1
      rcases hc with rfl | hc
      · decide
      · simp at hc
        rw [hc]
        decide
    intro k
    have := getElem?_unique_char hpre hpost k
    simpa using this
  · intro k hk hcontra
    rw [List.getElem?_append, if_pos (by simp; omega)] at hcontra
    have hmem := List.getElem?_mem hcontra
    revert hmem
    decide
  · rfl
  · have hrw : ['d', 'e', 'l', 'e', 't', 'e', '(', '"'] ++ (x ++ ['"', ')']) =
        (['d', 'e', 'l', 'e', 't', 'e', '(', '"'] ++ (x ++ ['"'])) ++ [')'] := by simp
    rw [hrw]
    exact getElem?_last_concat

/-! ### The two matchers never succeed at the same position -/

theorem argRun_eq : ∀ (a x u v : List Char),
    (∀ c ∈ a, isArgChar c = true) → (∀ c ∈ x, isArgChar c = true) →
    a ++ '"' :: u = x ++ '"' :: v → a = x ∧ u = v := by
  intro a
  induction a with
  | nil =>
    intro x u v _ hx h
    cases x with
    | nil => simpa using h
    | cons d x' =>
      simp only [List.nil_append, List.cons_append, List.cons.injEq] at h
      have := (isArgChar_ne (hx d (by simp))).2.2
      exact absurd h.1.symm this
  | cons c a' ih =>
    intro x u v ha hx h
    cases x with
    | nil =>
      simp only [List.cons_append, List.nil_append, List.cons.injEq] at h
      have := (isArgChar_ne (ha c (by simp))).2.2
      exact absurd h.1 this
    | cons d x' =>
      simp only [List.cons_append, List.cons.injEq] at h
      obtain ⟨rfl, h2⟩ := h
      obtain ⟨h3, h4⟩ := ih x' u v (fun e he => ha e (by simp [he]))
        (fun e he => hx e (by simp [he])) h2
      exact ⟨by rw [h3], h4⟩

theorem not_both_match {s : List Char} {z : (String × List Char × List Char) × List Char}
    {w : List Char × List Char} (h2 : matchTwo s = some z) (h1 : matchOne s = some w) :
    False := by
  obtain ⟨⟨op, a, b⟩, r⟩ := z
  obtain ⟨x, r2⟩ := w
  obtain ⟨opc, ws, hop, hs, hna, hnb, hca, hcb, hcw⟩ := matchTwo_eq h2
  obtain ⟨hs1, hnx, hcx⟩ := matchOne_eq h1
  rcases hop with ⟨_, rfl⟩ | ⟨_, rfl⟩
  · rw [hs] at hs1
    simp only [List.cons_append, List.nil_append, List.append_assoc, List.cons.injEq] at hs1
    exact absurd hs1.1 (by decide)
  · rw [hs] at hs1
    simp only [List.cons_append, List.nil_append, List.append_assoc, List.cons.injEq] at hs1
    have htail : a ++ '"' :: (',' :: (ws ++ '"' :: (b ++ '"' :: ')' :: r))) =
        x ++ '"' :: (')' :: r2) := by
      simpa using hs1
    obtain ⟨_, h4⟩ := argRun_eq a x _ _ hca hcx htail
    simp at h4

/-! ### findall: soundness, ordering, completeness -/

theorem matchTwo_consuming : Consuming matchTwo := by
  intro s x r h
  obtain ⟨⟨op, a, b⟩, hx⟩ : ∃ p : String × List Char × List Char, x = p := ⟨x, rfl⟩
  subst hx
  obtain ⟨sp, _, hs, _, _, hlen, _⟩ := matchTwo_span h
  refine ⟨sp, hs, ?_⟩
  intro hnil
  rw [hnil] at hlen
  simp at hlen

theorem matchOne_consuming : Consuming matchOne := by
  intro s x r h
  obtain ⟨sp, hs, hlen, _⟩ := matchOne_span h
  refine ⟨sp, hs, ?_⟩
  intro hnil
  rw [hnil] at hlen
  simp at hlen

theorem consuming_facts {α : Type} {m : List Char → Option (α × List Char)}
    (hm : Consuming m) {s : List Char} {x : α} {r : List Char} (h : m s = some (x, r)) :
    r.length < s.length ∧ s.drop (s.length - r.length) = r := by
  obtain ⟨sp, hs, hne⟩ := hm s x r h
  have hlen : s.length = sp.length + r.length := by rw [hs]; simp
  have hsp : 1 ≤ sp.length := List.length_pos.mpr hne
  constructor
  · omega
  · have : s.length - r.length = sp.length := by omega
    rw [this, hs, List.drop_left]

theorem mem_nil_of_consuming {α : Type} {m : List Char → Option (α × List Char)}
    (hm : Consuming m) {x : α} {r : List Char} (h : m [] = some (x, r)) : False := by
  obtain ⟨sp, hs, hne⟩ := hm [] x r h
  exact hne (List.append_eq_nil.mp hs.symm).1

theorem findallPosFuel_sound {α : Type} {m : List Char → Option (α × List Char)}
    (hm : Consuming m) :
    ∀ (fuel : Nat) (pos : Nat) (s : List Char) (p l : Nat) (x : α),
      s.length ≤ fuel → (p, l, x) ∈ findallPosFuel m fuel pos s →
      pos ≤ p ∧ ∃ r, m (s.drop (p - pos)) = some (x, r) ∧
        l = (s.drop (p - pos)).length - r.length ∧ 1 ≤ l ∧ p - pos + l ≤ s.length := by
  intro fuel
  induction fuel with
  | zero =>
    intro pos s p l x _ hmem
    simp [findallPosFuel] at hmem
  | succ fuel ih =>
    intro pos s p l x hlen hmem
    cases s with
    | nil => simp [findallPosFuel] at hmem
    | cons c rest =>
      rw [findallPosFuel] at hmem
      cases hcr : m (c :: rest) with
      | some xr =>
        obtain ⟨x0, r0⟩ := xr
        rw [hcr] at hmem
        simp only [List.mem_cons, Prod.mk.injEq] at hmem
        obtain ⟨hfl, hfd⟩ := consuming_facts hm hcr
        rcases hmem with ⟨rfl, rfl, rfl⟩ | hmem
        · refine ⟨le_refl _, r0, ?_, ?_, ?_, ?_⟩
          · simpa using hcr
          · simp
          · omega
          · omega
        · have hr0 : r0.length ≤ fuel := by omega
          obtain ⟨hple, r', hmr, hlr, hl1, hbound⟩ := ih
            (pos + ((c :: rest).length - r0.length)) r0 p l x hr0 hmem
          have hdd : (c :: rest).drop (p - pos) =
              r0.drop (p - (pos + ((c :: rest).length - r0.length))) := by
            have h1 : p - pos = ((c :: rest).length - r0.length) +
                (p - (pos + ((c :: rest).length - r0.length))) := by omega
            rw [h1, ← List.drop_drop, hfd]
          refine ⟨by omega, r', ?_, ?_, hl1, ?_⟩
          · rw [hdd]; exact hmr
          · rw [hdd]; exact hlr
          · omega
      | none =>
        rw [hcr] at hmem
        have hrest : rest.length ≤ fuel := by
          have : (c :: rest).length = rest.length + 1 := by simp
          omega
        obtain ⟨hple, r', hmr, hlr, hl1, hbound⟩ := ih (pos + 1) rest p l x hrest hmem
        have hdd : (c :: rest).drop (p - pos) = rest.drop (p - (pos + 1)) := by
          have h1 : p - pos = (p - (pos + 1)) + 1 := by omega
          rw [h1]
          simp [List.drop_succ_cons]
        have hcc : (c :: rest).length = rest.length + 1 := by simp
        refine ⟨by omega, r', ?_, ?_, hl1, ?_⟩
        · rw [hdd]; exact hmr
        · rw [hdd]; exact hlr
        · omega

theorem findallPosFuel_pairwise {α : Type} {m : List Char → Option (α × List Char)}
    (hm : Consuming m) :
    ∀ (fuel : Nat) (pos : Nat) (s : List Char), s.length ≤ fuel →
      List.Pairwise (fun u v => u.1 + u.2.1 ≤ v.1) (findallPosFuel m fuel pos s) := by
  intro fuel
  induction fuel with
  | zero => intro pos s _; simp [findallPosFuel]
  | succ fuel ih =>
    intro pos s hlen
    cases s with
    | nil => simp [findallPosFuel]
    | cons c rest =>
      rw [findallPosFuel]
      cases hcr : m (c :: rest) with
      | some xr =>
        obtain ⟨x0, r0⟩ := xr
        obtain ⟨hfl, _⟩ := consuming_facts hm hcr
        have hr0 : r0.length ≤ fuel := by omega
        refine List.Pairwise.cons ?_ (ih _ r0 hr0)
        rintro ⟨vp, vl, vx⟩ hv
        obtain ⟨hple, _⟩ := findallPosFuel_sound hm fuel
          (pos + ((c :: rest).length - r0.length)) r0 vp vl vx hr0 hv
        simpa using hple
      | none =>
        have hrest : rest.length ≤ fuel := by
          have : (c :: rest).length = rest.length + 1 := by simp
          omega
        exact ih _ rest hrest

theorem findallPosFuel_complete {α : Type} {m : List Char → Option (α × List Char)}
    (hm : Consuming m) :
    ∀ (fuel : Nat) (pos : Nat) (s : List Char) (q : Nat) (x : α) (r : List Char),
      s.length ≤ fuel → m (s.drop q) = some (x, r) →
      ∃ e ∈ findallPosFuel m fuel pos s, e.1 - pos ≤ q ∧ q < e.1 - pos + e.2.1 := by
  intro fuel
  induction fuel with
  | zero =>
    intro pos s q x r hlen hq
    have : s = [] := List.length_eq_zero.mp (by omega)
    subst this
    rw [List.drop_nil] at hq
    exact absurd hq (fun h => mem_nil_of_consuming hm h)
  | succ fuel ih =>
    intro pos s q x r hlen hq
    cases s with
    | nil =>
      rw [List.drop_nil] at hq
      exact absurd hq (fun h => mem_nil_of_consuming hm h)
    | cons c rest =>
      rw [findallPosFuel]
      cases hcr : m (c :: rest) with
      | some xr =>
        obtain ⟨x0, r0⟩ := xr
        obtain ⟨hfl, hfd⟩ := consuming_facts hm hcr
        have hr0 : r0.length ≤ fuel := by omega
        by_cases hqk : q < (c :: rest).length - r0.length
        · refine ⟨(pos, (c :: rest).length - r0.length, x0), by simp, ?_, ?_⟩
          · simp
          · simpa using hqk
        · have hdd : (c :: rest).drop q =
              r0.drop (q - ((c :: rest).length - r0.length)) := by
            have h1 : q = ((c :: rest).length - r0.length) +
                (q - ((c :: rest).length - r0.length)) := by omega
            rw [h1, ← List.drop_drop, hfd]
            congr 1
            omega
          rw [hdd] at hq
          obtain ⟨⟨ep, el, ex⟩, hemem, he1, he2⟩ := ih
            (pos + ((c :: rest).length - r0.length)) r0
            (q - ((c :: rest).length - r0.length)) x r hr0 hq
          obtain ⟨hple, _⟩ := findallPosFuel_sound hm fuel
            (pos + ((c :: rest).length - r0.length)) r0 ep el ex hr0 hemem
          refine ⟨(ep, el, ex), List.mem_cons_of_mem _ hemem, ?_, ?_⟩
          · simp only at he1 ⊢
            omega
          · simp only at he2 ⊢
            omega
      | none =>
        have hrest : rest.length ≤ fuel := by
          have : (c :: rest).length = rest.length + 1 := by simp
          omega
        cases q with
        | zero =>
          rw [List.drop_zero] at hq
          rw [hq] at hcr
          exact absurd hcr (by simp)
        | succ q' =>
          rw [List.drop_succ_cons] at hq
          obtain ⟨⟨ep, el, ex⟩, hemem, he1, he2⟩ := ih (pos + 1) rest q' x r hrest hq
          obtain ⟨hple, _⟩ := findallPosFuel_sound hm fuel (pos + 1) rest ep el ex
            hrest hemem
          refine ⟨(ep, el, ex), hemem, ?_, ?_⟩
          · simp only at he1 ⊢
            omega
          · simp only at he2 ⊢
            omega

/-! ### Spans of two-argument and one-argument matches never overlap -/

theorem two_one_span_disjoint {td : List Char} {p1 p2 l1 l2 : Nat}
    {x1 : String × List Char × List Char} {r1 : List Char} {x2 r2 : List Char}
    (h1 : matchTwo (td.drop p1) = some (x1, r1))
    (hl1 : l1 = (td.drop p1).length - r1.length)
    (h2 : matchOne (td.drop p2) = some (x2, r2))
    (hl2 : l2 = (td.drop p2).length - r2.length) :
    p1 + l1 ≤ p2 ∨ p2 + l2 ≤ p1 := by
  obtain ⟨⟨op, a, b⟩, hx1⟩ : ∃ p : String × List Char × List Char, x1 = p := ⟨x1, rfl⟩
  subst hx1
  obtain ⟨sp1, oplen, hd1, hopv, hopa, hlen1, huniq1, hnp1, hlast1⟩ := matchTwo_span h1
  obtain ⟨sp2, hd2, hlen2, huniq2, hnp2, he2, hlast2⟩ := matchOne_span h2
  have h36 : 3 ≤ oplen ∧ oplen ≤ 6 := by rcases hopv with rfl | rfl <;> omega
  have hsl1 : l1 = sp1.length := by rw [hl1, hd1]; simp
  have hsl2 : l2 = sp2.length := by rw [hl2, hd2]; simp
  subst hsl1
  subst hsl2
  by_contra hcon
  push_neg at hcon
  obtain ⟨hc1, hc2⟩ := hcon
  rcases Nat.lt_trichotomy p1 p2 with hlt | heq | hgt
  · by_cases hsix : p2 + 6 < p1 + sp1.length
    · have h6 : td[p2 + 6]? = sp2[6]? := by
        have := drop_decomp_getElem hd2 (k := 6) (by omega)
        simpa using this
      have h6' : sp2[6]? = some '(' := (huniq2 6).mpr rfl
      have hk : td[p1 + (p2 + 6 - p1)]? = sp1[p2 + 6 - p1]? :=
        drop_decomp_getElem hd1 (by omega)
      have heqp : p1 + (p2 + 6 - p1) = p2 + 6 := by omega
      rw [heqp] at hk
      have hfin : sp1[p2 + 6 - p1]? = some '(' := by rw [← hk, h6, h6']
      have := (huniq1 _).mp hfin
      omega
    · have hq : td[p1 + (sp1.length - 1)]? = sp1[sp1.length - 1]? :=
        drop_decomp_getElem hd1 (by omega)
      rw [hlast1] at hq
      have hj : td[p2 + (p1 + sp1.length - 1 - p2)]? = sp2[p1 + sp1.length - 1 - p2]? :=
        drop_decomp_getElem hd2 (by omega)
      have heqp : p2 + (p1 + sp1.length - 1 - p2) = p1 + (sp1.length - 1) := by omega
      rw [heqp] at hj
      have hfin : sp2[p1 + sp1.length - 1 - p2]? = some ')' := by rw [← hj, hq]
      exact hnp2 _ (by omega) hfin
  · subst heq
    exact not_both_match h1 h2
  · by_cases hin : p1 + oplen < p2 + sp2.length
    · have ha1 : td[p1 + oplen]? = sp1[oplen]? := drop_decomp_getElem hd1 (by omega)
      have ha2 : sp1[oplen]? = some '(' := (huniq1 oplen).mpr rfl
      have hb1 : td[p2 + (p1 + oplen - p2)]? = sp2[p1 + oplen - p2]? :=
        drop_decomp_getElem hd2 (by omega)
      have heqp : p2 + (p1 + oplen - p2) = p1 + oplen := by omega
      rw [heqp] at hb1
      have hb2 : sp2[p1 + oplen - p2]? = some '(' := by rw [← hb1, ha1, ha2]
      have h6 := (huniq2 _).mp hb2
      have hop3 : oplen = 3 := by rcases hopv with rfl | rfl <;> omega
      have hA : td[p1 + 0]? = sp1[0]? := drop_decomp_getElem hd1 (by omega)
      rw [hopa hop3] at hA
      have hE1 : td[p2 + 3]? = sp2[3]? := drop_decomp_getElem hd2 (by omega)
      rw [he2] at hE1
      have hae : (some 'a' : Option Char) = some 'e' := by
        rw [← hA, show p1 + 0 = p2 + 3 by omega, hE1]
      simp at hae
    · have hq1 : td[p2 + (sp2.length - 1)]? = sp2[sp2.length - 1]? :=
        drop_decomp_getElem hd2 (by omega)
      rw [hlast2] at hq1
      have hk : td[p1 + (p2 + sp2.length - 1 - p1)]? = sp1[p2 + sp2.length - 1 - p1]? :=
        drop_decomp_getElem hd1 (by omega)
      have heqp : p1 + (p2 + sp2.length - 1 - p1) = p2 + (sp2.length - 1) := by omega
      rw [heqp] at hk
      have hfin : sp1[p2 + sp2.length - 1 - p1]? = some ')' := by rw [← hk, hq1]
      exact hnp1 _ (by omega) hfin

/-- C9: for every input text the parser returns, as a single list, all
two-argument `add`/`delete` matches first (in left-to-right order of
appearance), then all one-argument `delete` matches (in left-to-right order);
the reported spans are sound, non-overlapping within each scan and across the
two scans, and complete (every position where a pattern matches is covered by
a reported span of that pattern). -/
theorem parser_groups (t : String) :
    directives t =
      (twoMatches t).map (fun m => Directive.two m.2.2.1 m.2.2.2.1.asString m.2.2.2.2.asString) ++
      (oneMatches t).map (fun m => Directive.one m.2.2.asString) ∧
    List.Pairwise (fun u v => u.1 + u.2.1 ≤ v.1) (twoMatches t) ∧
    List.Pairwise (fun u v => u.1 + u.2.1 ≤ v.1) (oneMatches t) ∧
    (∀ u ∈ twoMatches t, ∀ v ∈ oneMatches t,
      u.1 + u.2.1 ≤ v.1 ∨ v.1 + v.2.1 ≤ u.1) ∧
    (∀ u ∈ twoMatches t, ∃ r, matchTwo (t.data.drop u.1) = some (u.2.2, r) ∧
      u.2.1 = (t.data.drop u.1).length - r.length ∧ 1 ≤ u.2.1 ∧
      u.1 + u.2.1 ≤ t.data.length) ∧
    (∀ v ∈ oneMatches t, ∃ r, matchOne (t.data.drop v.1) = some (v.2.2, r) ∧
      v.2.1 = (t.data.drop v.1).length - r.length ∧ 1 ≤ v.2.1 ∧
      v.1 + v.2.1 ≤ t.data.length) ∧
    (∀ q x r, matchTwo (t.data.drop q) = some (x, r) →
      ∃ e ∈ twoMatches t, e.1 ≤ q ∧ q < e.1 + e.2.1) ∧
    (∀ q x r, matchOne (t.data.drop q) = some (x, r) →
      ∃ e ∈ oneMatches t, e.1 ≤ q ∧ q < e.1 + e.2.1) := by
  have hsound2 : ∀ u ∈ twoMatches t, ∃ r, matchTwo (t.data.drop u.1) = some (u.2.2, r) ∧
      u.2.1 = (t.data.drop u.1).length - r.length ∧ 1 ≤ u.2.1 ∧
      u.1 + u.2.1 ≤ t.data.length := by
    rintro ⟨p, l, x⟩ hu
    obtain ⟨_, r, hmr, hlr, hl1, hb⟩ := findallPosFuel_sound matchTwo_consuming
      t.data.length 0 t.data p l x (le_refl _) hu
    rw [Nat.sub_zero] at hmr hlr hb
    exact ⟨r, hmr, hlr, hl1, hb⟩
  have hsound1 : ∀ v ∈ oneMatches t, ∃ r, matchOne (t.data.drop v.1) = some (v.2.2, r) ∧
      v.2.1 = (t.data.drop v.1).length - r.length ∧ 1 ≤ v.2.1 ∧
      v.1 + v.2.1 ≤ t.data.length := by
    rintro ⟨p, l, x⟩ hv
    obtain ⟨_, r, hmr, hlr, hl1, hb⟩ := findallPosFuel_sound matchOne_consuming
      t.data.length 0 t.data p l x (le_refl _) hv
    rw [Nat.sub_zero] at hmr hlr hb
    exact ⟨r, hmr, hlr, hl1, hb⟩
  refine ⟨rfl,
    findallPosFuel_pairwise matchTwo_consuming t.data.length 0 t.data (le_refl _),
    findallPosFuel_pairwise matchOne_consuming t.data.length 0 t.data (le_refl _),
    ?_, hsound2, hsound1, ?_, ?_⟩
  · intro u hu v hv
    obtain ⟨r1, hmr1, hlr1, _, _⟩ := hsound2 u hu
    obtain ⟨r2, hmr2, hlr2, _, _⟩ := hsound1 v hv
    exact two_one_span_disjoint hmr1 hlr1 hmr2 hlr2
  · intro q x r hq
    obtain ⟨e, hemem, he1, he2⟩ := findallPosFuel_complete matchTwo_consuming
      t.data.length 0 t.data q x r (le_refl _) hq
    rw [Nat.sub_zero] at he1 he2
    exact ⟨e, hemem, he1, he2⟩
  · intro q x r hq
    obtain ⟨e, hemem, he1, he2⟩ := findallPosFuel_complete matchOne_consuming
      t.data.length 0 t.data q x r (le_refl _) hq
    rw [Nat.sub_zero] at he1 he2
    exact ⟨e, hemem, he1, he2⟩

/-- Witness for `parser_groups` at a concrete text: the completeness conjunct
is applied at position 2, where `add("A", "B")` matches, and the returned span
is the reported one. -/
theorem parser_groups_witness :
    ∃ e ∈ twoMatches "x add(\"A\", \"B\") y", e.1 ≤ 2 ∧ 2 < e.1 + e.2.1 :=
  (parser_groups "x add(\"A\", \"B\") y").2.2.2.2.2.2.1 2 ("add", ['A'], ['B'])
    [' ', 'y'] (by decide)

/-! ### Classification lemmas -/

theorem classifyStep_delete_self (acc : Classified) (x : String) :
    classifyStep acc (Directive.two "delete" x x) = acc := by
  simp [classifyStep]

theorem classify_selfloop_delete_skip (pre post : List Directive) (x : String) :
    classify (pre ++ Directive.two "delete" x x :: post) = classify (pre ++ post) := by
  unfold classify
  rw [List.foldl_append, List.foldl_append, List.foldl_cons, classifyStep_delete_self]

theorem foldl_newEdges_shape (ms : List Directive) :
    ∀ acc : Classified, (∀ e ∈ acc.newEdges, ∃ a b, e = [a, b] ∧ a ≠ b) →
      ∀ e ∈ (ms.foldl classifyStep acc).newEdges, ∃ a b, e = [a, b] ∧ a ≠ b := by
  induction ms with
  | nil => intro acc h; simpa using h
  | cons d rest ih =>
    intro acc h
    rw [List.foldl_cons]
    apply ih
    intro e he
    cases d with
    | two op a b =>
      simp only [classifyStep] at he
      split_ifs at he with h1 h2 h3
      · exact h e he
      · rw [List.mem_append] at he
        rcases he with he | he
        · exact h e he
        · simp only [List.mem_singleton] at he
          exact ⟨a, b, he, h2⟩
      · exact h e he
      · exact h e he
    | one a =>
      simp only [classifyStep] at he
      exact h e he

theorem classify_newEdges_shape (ms : List Directive) :
    ∀ e ∈ (classify ms).newEdges, ∃ a b, e = [a, b] ∧ a ≠ b :=
  foldl_newEdges_shape ms ⟨[], ∅, ∅⟩ (by simp)

theorem foldl_removeEdges_mono (ms : List Directive) :
    ∀ acc : Classified, acc.removeEdges ⊆ (ms.foldl classifyStep acc).removeEdges := by
  induction ms with
  | nil => intro acc; simp
  | cons d rest ih =>
    intro acc
    rw [List.foldl_cons]
    refine subset_trans ?_ (ih _)
    cases d with
    | two op a b =>
      simp only [classifyStep]
      split_ifs
      · exact subset_refl _
      · exact subset_refl _
      · exact Finset.subset_insert _ _
      · exact subset_refl _
    | one a =>
      simp only [classifyStep]
      exact subset_refl _

theorem mem_classify_removeEdges {ms : List Directive} {a b : String}
    (hne : a ≠ b) (hmem : Directive.two "delete" a b ∈ ms) :
    ({a, b} : Finset String) ∈ (classify ms).removeEdges := by
  obtain ⟨pre, post, rfl⟩ := List.append_of_mem hmem
  unfold classify
  rw [List.foldl_append, List.foldl_cons]
  apply foldl_removeEdges_mono
  simp only [classifyStep]
  rw [if_pos (Or.inr trivial), if_neg hne, if_neg (show ¬("delete" = "add") by decide)]
  exact Finset.mem_insert_self _ _

/-! ### Reconciliation walk lemmas -/

theorem reconcileGo_cons_skip {rE : Finset (Finset String)} {rN : Finset String}
    {e : List String} {rest : List (List String)} {added : Finset (Finset String)}
    (h : e.toFinset ∈ added ∨ (e.toFinset ∩ rN).Nonempty ∨ e.toFinset ∈ rE) :
    reconcileGo rE rN (e :: rest) added = reconcileGo rE rN rest added := by
  simp only [reconcileGo, if_pos h]

theorem reconcileGo_cons_keep {rE : Finset (Finset String)} {rN : Finset String}
    {e : List String} {rest : List (List String)} {added : Finset (Finset String)}
    (h : ¬(e.toFinset ∈ added ∨ (e.toFinset ∩ rN).Nonempty ∨ e.toFinset ∈ rE)) :
    reconcileGo rE rN (e :: rest) added =
      e.toFinset :: reconcileGo rE rN rest (insert e.toFinset added) := by
  simp only [reconcileGo, if_neg h]

theorem reconcileGo_spec (rE : Finset (Finset String)) (rN : Finset String) :
    ∀ (l : List (List String)) (added : Finset (Finset String)),
      (∀ p ∈ reconcileGo rE rN l added,
        p ∉ added ∧ (p ∩ rN) = ∅ ∧ p ∉ rE ∧ ∃ e ∈ l, p = e.toFinset) ∧
      (reconcileGo rE rN l added).Nodup := by
  intro l
  induction l with
  | nil => intro added; simp [reconcileGo]
  | cons e rest ih =>
    intro added
    by_cases hskip : e.toFinset ∈ added ∨ (e.toFinset ∩ rN).Nonempty ∨ e.toFinset ∈ rE
    · rw [reconcileGo_cons_skip hskip]
      obtain ⟨hmem, hnd⟩ := ih added
      refine ⟨?_, hnd⟩
      intro p hp
      obtain ⟨h1, h2, h3, e', he', h4⟩ := hmem p hp
      exact ⟨h1, h2, h3, e', List.mem_cons_of_mem _ he', h4⟩
    · rw [reconcileGo_cons_keep hskip]
      push_neg at hskip
      obtain ⟨h1, h2, h3⟩ := hskip
      have h2' : e.toFinset ∩ rN = ∅ := Finset.not_nonempty_iff_eq_empty.mp h2
      obtain ⟨hmem, hnd⟩ := ih (insert e.toFinset added)
      constructor
      · intro p hp
        rcases List.mem_cons.mp hp with rfl | hp
        · exact ⟨h1, h2', h3, e, List.mem_cons_self _ _, rfl⟩
        · obtain ⟨hp1, hp2, hp3, e', he', hp4⟩ := hmem p hp
          exact ⟨fun hc => hp1 (Finset.mem_insert_of_mem hc), hp2, hp3,
            e', List.mem_cons_of_mem _ he', hp4⟩
      · refine List.Pairwise.cons ?_ hnd
        intro p hp
        obtain ⟨hp1, _⟩ := hmem p hp
        intro hc
        exact hp1 (by rw [← hc]; exact Finset.mem_insert_self _ _)

theorem reconcileGo_empty_removals :
    ∀ (l : List (List String)) (added : Finset (Finset String)),
      reconcileGo ∅ ∅ l added = dedupPairsFirst (l.map List.toFinset) added := by
  intro l
  induction l with
  | nil => intro added; simp [reconcileGo, dedupPairsFirst]
  | cons e rest ih =>
    intro added
    by_cases h : e.toFinset ∈ added
    · rw [reconcileGo_cons_skip (Or.inl h)]
      simp only [List.map_cons, dedupPairsFirst, if_pos h]
      exact ih added
    · rw [reconcileGo_cons_keep (by simp [h])]
      simp only [List.map_cons, dedupPairsFirst, if_neg h]
      rw [ih]

theorem dedupPairsFirst_of_nodup :
    ∀ (ps : List (Finset String)) (seen : Finset (Finset String)),
      ps.Nodup → (∀ p ∈ ps, p ∉ seen) → dedupPairsFirst ps seen = ps := by
  intro ps
  induction ps with
  | nil => intro seen _ _; rfl
  | cons p rest ih =>
    intro seen hnd hout
    have hp : p ∉ seen := hout p (List.mem_cons_self _ _)
    simp only [dedupPairsFirst, if_neg hp]
    rw [ih (insert p seen) (List.Nodup.of_cons hnd)]
    intro q hq
    simp only [Finset.mem_insert]
    push_neg
    exact ⟨fun hc => (List.nodup_cons.mp hnd).1 (hc ▸ hq),
      hout q (List.mem_cons_of_mem _ hq)⟩

/-! ### Enumeration and node-set lemmas -/

theorem IsEnumOf.pairs_perm {out : List (List String)} {pairs : List (Finset String)}
    (h : IsEnumOf out pairs) : List.Perm (out.map List.toFinset) pairs := h.1

theorem IsEnumOf.mem_pairs {out : List (List String)} {pairs : List (Finset String)}
    (h : IsEnumOf out pairs) {e : List String} (he : e ∈ out) : e.toFinset ∈ pairs :=
  (h.1.mem_iff).mp (List.mem_map_of_mem _ he)

theorem mem_nodesOf {l : List (List String)} {x : String} :
    x ∈ nodesOf l ↔ ∃ e ∈ l, x ∈ e.toFinset := by
  induction l with
  | nil => simp [nodesOf]
  | cons e rest ih =>
    simp only [nodesOf, List.foldr_cons, Finset.mem_union]
    rw [show rest.foldr (fun e acc => e.toFinset ∪ acc) ∅ = nodesOf rest from rfl]
    rw [ih]
    simp

/-! ### Claim theorems -/

theorem reconcilePairs_eq (current : List (List String)) (t : String) (replace : Bool) :
    reconcilePairs current t replace =
      reconcileGo (classify (directives t)).removeEdges (classify (directives t)).removeNodes
        (if replace then (classify (directives t)).newEdges
         else current ++ (classify (directives t)).newEdges) ∅ := rfl

theorem pair_card_two {a b : String} (hne : a ≠ b) :
    ([a, b] : List String).toFinset.card = 2 := by
  simp [List.toFinset_cons, hne]

/-- C1 (amended): for every current edge list, directive text and replace
flag, every committed edge list has pairwise-distinct unordered pairs, no
edge touching a pending node removal, no edge whose unordered pair is a
pending edge removal — in particular `delete("A","B")` evicts `{A,B}` no
matter where an `add("A","B")` occurs in the text, since removal applies to
the whole candidate walk — and, PROVIDED every current edge carries at least
two distinct labels, no self-loop.  The proviso is forced by the code: a
degenerate edge already in the current list passes through the walk untouched
(`reconcile_selfloop_passthrough_cex`). -/
theorem reconcile_commit_guarantees
    (current : List (List String)) (t : String) (replace : Bool)
    (out : List (List String)) (hc : CommitRel current t replace out) :
    (out.map List.toFinset).Nodup ∧
    (∀ e ∈ out, ∀ x ∈ e.toFinset, x ∉ (classify (directives t)).removeNodes) ∧
    (∀ e ∈ out, e.toFinset ∉ (classify (directives t)).removeEdges) ∧
    (∀ a b, a ≠ b → Directive.two "delete" a b ∈ directives t →
      ∀ e ∈ out, e.toFinset ≠ {a, b}) ∧
    ((∀ e ∈ current, 2 ≤ e.toFinset.card) → ∀ e ∈ out, 2 ≤ e.toFinset.card) := by
  have hperm := hc.1
  rw [reconcilePairs_eq] at hperm
  obtain ⟨hmem, hnd⟩ := reconcileGo_spec (classify (directives t)).removeEdges
    (classify (directives t)).removeNodes
    (if replace then (classify (directives t)).newEdges
     else current ++ (classify (directives t)).newEdges) ∅
  have hin : ∀ e ∈ out, e.toFinset ∈ reconcileGo (classify (directives t)).removeEdges
      (classify (directives t)).removeNodes
      (if replace then (classify (directives t)).newEdges
       else current ++ (classify (directives t)).newEdges) ∅ := by
    intro e he
    exact hperm.mem_iff.mp (List.mem_map_of_mem _ he)
  refine ⟨?_, ?_, ?_, ?_, ?_⟩
  · exact hperm.nodup_iff.mpr hnd
  · intro e he x hx hxr
    obtain ⟨_, hint, _, _⟩ := hmem _ (hin e he)
    have : x ∈ e.toFinset ∩ (classify (directives t)).removeNodes :=
      Finset.mem_inter.mpr ⟨hx, hxr⟩
    rw [hint] at this
    exact absurd this (Finset.not_mem_empty x)
  · intro e he
    obtain ⟨_, _, hre, _⟩ := hmem _ (hin e he)
    exact hre
  · intro a b hab hdir e he hcontra
    obtain ⟨_, _, hre, _⟩ := hmem _ (hin e he)
    exact hre (hcontra ▸ mem_classify_removeEdges hab hdir)
  · intro hcur e he
    obtain ⟨_, _, _, e', he', hpe⟩ := hmem _ (hin e he)
    rw [hpe]
    have hshape := classify_newEdges_shape (directives t)
    by_cases hrep : replace = true
    · rw [if_pos hrep] at he'
      obtain ⟨a, b, rfl, hab⟩ := hshape e' he'
      exact le_of_eq (pair_card_two hab).symm
    · rw [if_neg hrep] at he'
      rcases List.mem_append.mp he' with h | h
      · exact hcur e' h
      · obtain ⟨a, b, rfl, hab⟩ := hshape e' h
        exact le_of_eq (pair_card_two hab).symm

/-- C1 counterexample: with current edges `[("X","X")]` and a directive-free
text, the only possible committed list is `[("X",)]` — the degenerate
unordered pair `{X}` (a self-loop, one endpoint) survives reconciliation, so
the claim's "no edge with equal endpoints" guarantee fails for this current
edge list. -/
theorem reconcile_selfloop_passthrough_cex :
    CommitRel [["X", "X"]] "no directives here" false [["X"]] ∧
    (["X"] : List String).toFinset.card = 1 := by
  constructor
  · unfold CommitRel
    decide
  · decide

/-- Witness for `reconcile_commit_guarantees`: concrete run where
`delete("A", "B")` evicts the pre-existing edge even though the pair is
current, and the committed list (in flipped enumeration order) satisfies all
guarantees. -/
theorem reconcile_commit_guarantees_witness :
    (([["D", "C"]] : List (List String)).map List.toFinset).Nodup ∧
    (∀ e ∈ ([["D", "C"]] : List (List String)), e.toFinset ≠ ({"A", "B"} : Finset String)) ∧
    (∀ e ∈ ([["D", "C"]] : List (List String)), 2 ≤ e.toFinset.card) := by
  have h := reconcile_commit_guarantees [["A", "B"]]
    "delete(\"A\", \"B\") add(\"C\", \"D\")" false [["D", "C"]] (by decide)
  exact ⟨h.1, h.2.2.2.1 "A" "B" (by decide) (by decide), h.2.2.2.2 (by decide)⟩


/-- C2 (amended): reconciliation is deterministic only at the level of the
SET of unordered pairs: the multiset of pairs of any committed list equals
the admitted-pair list (a pure function of the inputs), so two runs on
identical inputs agree up to permutation.  The committed list is NOT the
admitted pairs in admission order with first-occurrence endpoint order, and
identical inputs need not give identical lists, because the code rebuilds the
list by iterating a Python `set` of frozensets
(`self.edges = list(tuple(a) for a in added)`), whose order is hash-dependent:
see `commit_order_unstable_cex`. -/
theorem commit_pairs_deterministic
    (current : List (List String)) (t : String) (replace : Bool)
    (out out2 : List (List String))
    (h : CommitRel current t replace out) (h2 : CommitRel current t replace out2) :
    List.Perm (out.map List.toFinset) (reconcilePairs current t replace) ∧
    List.Perm (out.map List.toFinset) (out2.map List.toFinset) :=
  ⟨h.1, h.1.trans h2.1.symm⟩

/-- C2 counterexample: for one and the same input, both the admission-ordered
list and its reversal are committed lists the code can produce, and they
differ — so "the returned edge list is exactly the surviving edges in the
order first admitted" and "identical inputs always produce an identical edge
list" are both false. -/
theorem commit_order_unstable_cex :
    CommitRel [] "add(\"A\", \"B\") add(\"C\", \"D\")" true [["A", "B"], ["C", "D"]] ∧
    CommitRel [] "add(\"A\", \"B\") add(\"C\", \"D\")" true [["C", "D"], ["A", "B"]] ∧
    ([["C", "D"], ["A", "B"]] : List (List String)) ≠ [["A", "B"], ["C", "D"]] := by
  refine ⟨?_, ?_, by decide⟩ <;> unfold CommitRel <;> decide

/-- Witness for `commit_pairs_deterministic` at a concrete input. -/
theorem commit_pairs_deterministic_witness :
    List.Perm (([["B", "A"]] : List (List String)).map List.toFinset)
      (reconcilePairs [] "add(\"A\", \"B\")" true) :=
  (commit_pairs_deterministic [] "add(\"A\", \"B\")" true [["B", "A"]] [["B", "A"]]
    (by decide) (by decide)).1

/-- C3 (amended): with zero parseable directives, `ask_for_initial_graph`
(replace=true) commits the EMPTY edge list — it clears the graph rather than
leaving it unchanged (`initial_generate_clears_cex`) — while the expand path
(replace=false) preserves exactly the first-occurrence-deduplicated set of
unordered pairs of the current list (the identical list only up to the set
enumeration of the commit). -/
theorem zero_directives_behavior (current : List (List String)) (t : String)
    (hzero : directives t = []) :
    (∀ out, CommitRel current t true out → out = []) ∧
    (∀ out, CommitRel current t false out →
      List.Perm (out.map List.toFinset) (dedupPairsFirst (current.map List.toFinset) ∅)) ∧
    (∀ out, CommitRel current t false out → (current.map List.toFinset).Nodup →
      List.Perm (out.map List.toFinset) (current.map List.toFinset)) ∧
    (∀ s query s2, AskInitRel s query t s2 → s2.edges = []) ∧
    (∀ s n s2, s.edges = current → AskExtRel s (some n) none t s2 →
      List.Perm (s2.edges.map List.toFinset) (dedupPairsFirst (current.map List.toFinset) ∅)) := by
  have hcl : classify (directives t) = ⟨[], ∅, ∅⟩ := by rw [hzero]; rfl
  have htrue : reconcilePairs current t true = [] := by
    rw [reconcilePairs_eq, hcl]
    rfl
  have hfalse : reconcilePairs current t false =
      dedupPairsFirst (current.map List.toFinset) ∅ := by
    rw [reconcilePairs_eq, hcl]
    simp only [if_neg (Bool.false_ne_true)]
    rw [List.append_nil, reconcileGo_empty_removals]
  have h1 : ∀ out, CommitRel current t true out → out = [] := by
    intro out h
    have hp := h.1
    rw [htrue] at hp
    exact List.map_eq_nil_iff.mp hp.eq_nil
  have h2 : ∀ out, CommitRel current t false out →
      List.Perm (out.map List.toFinset) (dedupPairsFirst (current.map List.toFinset) ∅) := by
    intro out h
    have hp := h.1
    rwa [hfalse] at hp
  refine ⟨h1, h2, ?_, ?_, ?_⟩
  · intro out h hnd
    have := h2 out h
    rwa [dedupPairsFirst_of_nodup _ _ hnd (by simp)] at this
  · rintro s query s2 ⟨out, hout, rfl⟩
    exact h1 out hout
  · rintro s n s2 hse ⟨conv, out, hconv, hout, rfl⟩
    rw [hse] at hout
    exact h2 out hout

/-- C3 counterexample: a populated graph plus a directive-free generation with
replace=true commits the empty list: the graph is cleared, not left
unchanged. -/
theorem initial_generate_clears_cex :
    CommitRel [["A", "B"]] "nothing parseable" true [] ∧
    (∀ out, CommitRel [["A", "B"]] "nothing parseable" true out → out = []) ∧
    ([] : List (List String)) ≠ [["A", "B"]] := by
  refine ⟨by unfold CommitRel; decide, ?_, by decide⟩
  intro out h
  have hp := h.1
  have he : reconcilePairs [["A", "B"]] "nothing parseable" true = [] := by decide
  rw [he] at hp
  exact List.map_eq_nil_iff.mp hp.eq_nil

/-- Witness for `zero_directives_behavior` at a concrete directive-free text. -/
theorem zero_directives_behavior_witness :
    ([] : List (List String)) = [] ∧
    List.Perm (([["B", "A"]] : List (List String)).map List.toFinset)
      (([["A", "B"]] : List (List String)).map List.toFinset) := by
  have h := zero_directives_behavior [["A", "B"]] "plain text" (by decide)
  exact ⟨h.1 [] (by decide), h.2.2.1 [["B", "A"]] (by decide) (by decide)⟩

/-- C4 (amended): with empty removal sets, any committed list's pairs are a
permutation of the first-occurrence deduplication of the new edges (replace)
or of current-then-new (extend).  "Exactly the deduplicated E-prime" as an
ordered list is false — the commit enumerates a Python set:
see `replace_extend_order_cex`. -/
theorem replace_extend_pairs
    (E Ep : List (List String)) (replace : Bool) (out : List (List String))
    (h : IsEnumOf out (reconcile E Ep ∅ ∅ replace)) :
    List.Perm (out.map List.toFinset)
      (dedupPairsFirst ((if replace then Ep else E ++ Ep).map List.toFinset) ∅) := by
  have he : reconcile E Ep ∅ ∅ replace =
      dedupPairsFirst ((if replace then Ep else E ++ Ep).map List.toFinset) ∅ := by
    unfold reconcile
    rw [reconcileGo_empty_removals]
  rw [he] at h
  exact h.1

/-- C4 counterexample: with `E' = [("A","B"),("C","D")]` (already
deduplicated) and no removals, replace=true can commit the reversed list,
which is not the deduplicated `E'`. -/
theorem replace_extend_order_cex :
    IsEnumOf [["C", "D"], ["A", "B"]] (reconcile [] [["A", "B"], ["C", "D"]] ∅ ∅ true) ∧
    ([["C", "D"], ["A", "B"]] : List (List String)) ≠ [["A", "B"], ["C", "D"]] := by
  constructor
  · unfold IsEnumOf
    decide
  · decide

/-- Witness for `replace_extend_pairs`: a duplicated add collapses to one
pair. -/
theorem replace_extend_pairs_witness :
    List.Perm (([["B", "A"], ["C", "D"]] : List (List String)).map List.toFinset)
      (dedupPairsFirst
        (([["A", "B"], ["A", "B"], ["C", "D"]] : List (List String)).map List.toFinset) ∅) :=
  replace_extend_pairs [] [["A", "B"], ["A", "B"], ["C", "D"]] true
    [["B", "A"], ["C", "D"]] (by unfold IsEnumOf; decide)

/-- C5: after `_delete_node(n)` no remaining edge contains `n`, `n` is absent
from the derived node set, and every edge not incident to `n` survives (in
fact the filter also preserves order and endpoint order). -/
theorem delete_node_complete (s : MindMapState) (n : String) :
    (∀ e ∈ (deleteNode s n).edges, n ∉ e.toFinset) ∧
    n ∉ (deleteNode s n).nodes ∧
    (∀ e ∈ s.edges, n ∉ e.toFinset → e ∈ (deleteNode s n).edges) := by
  refine ⟨?_, ?_, ?_⟩
  · intro e he
    simp only [deleteNode, List.mem_filter] at he
    exact of_decide_eq_true he.2
  · simp only [deleteNode]
    intro hmem
    rw [mem_nodesOf] at hmem
    obtain ⟨e, he, hn⟩ := hmem
    rw [List.mem_filter] at he
    exact (of_decide_eq_true he.2) hn
  · intro e he hn
    simp only [deleteNode, List.mem_filter]
    exact ⟨he, decide_eq_true hn⟩

/-- Witness for `delete_node_complete`: the spec's node-deletion scenario,
deleting `P` from `[("P","F"),("L","F")]` keeps exactly `("L","F")`. -/
theorem delete_node_complete_witness :
    (∀ e ∈ (deleteNode ⟨[["P", "F"], ["L", "F"]], {"P", "F", "L"}, some [], none⟩ "P").edges,
      "P" ∉ e.toFinset) ∧
    "P" ∉ (deleteNode ⟨[["P", "F"], ["L", "F"]], {"P", "F", "L"}, some [], none⟩ "P").nodes ∧
    ["L", "F"] ∈
      (deleteNode ⟨[["P", "F"], ["L", "F"]], {"P", "F", "L"}, some [], none⟩ "P").edges := by
  have h := delete_node_complete ⟨[["P", "F"], ["L", "F"]], {"P", "F", "L"}, some [], none⟩ "P"
  exact ⟨h.1, h.2.1, h.2.2 ["L", "F"] (by decide) (by decide)⟩

/-- C6 (amended): re-walking an already-deduplicated edge list with no adds
and empty removal sets admits exactly its own unordered pairs, in order; so
every possible re-committed list carries the same pair set, and the original
list itself is among the possible outputs.  Returning the IDENTICAL list is
not guaranteed, since the commit re-enumerates a Python set:
see `reconcile_not_list_idempotent_cex`. -/
theorem reconcile_idempotent_pairs
    (l : List (List String)) (hnd : (l.map List.toFinset).Nodup) :
    reconcile l [] ∅ ∅ false = l.map List.toFinset ∧
    (∀ out, IsEnumOf out (reconcile l [] ∅ ∅ false) →
      List.Perm (out.map List.toFinset) (l.map List.toFinset)) ∧
    ((∀ e ∈ l, e.Nodup) → IsEnumOf l (reconcile l [] ∅ ∅ false)) := by
  have h1 : reconcile l [] ∅ ∅ false = l.map List.toFinset := by
    unfold reconcile
    rw [if_neg (Bool.false_ne_true), List.append_nil, reconcileGo_empty_removals,
      dedupPairsFirst_of_nodup _ _ hnd (by simp)]
  refine ⟨h1, ?_, ?_⟩
  · intro out h
    rw [h1] at h
    exact h.1
  · intro hn
    rw [h1]
    exact ⟨List.Perm.refl _, hn⟩

/-- C6 counterexample: `[("A","B"),("C","D")]` is itself a reconciliation
output, and re-reconciling it with no operations can commit the reversed,
flipped list — not the identical list. -/
theorem reconcile_not_list_idempotent_cex :
    CommitRel [] "add(\"A\", \"B\") add(\"C\", \"D\")" true [["A", "B"], ["C", "D"]] ∧
    IsEnumOf [["D", "C"], ["B", "A"]]
      (reconcile [["A", "B"], ["C", "D"]] [] ∅ ∅ false) ∧
    ([["D", "C"], ["B", "A"]] : List (List String)) ≠ [["A", "B"], ["C", "D"]] := by
  refine ⟨?_, ?_, by decide⟩
  · unfold CommitRel
    decide
  · unfold IsEnumOf
    decide

/-- Witness for `reconcile_idempotent_pairs` at a concrete one-edge list. -/
theorem reconcile_idempotent_pairs_witness :
    reconcile [["A", "B"]] [] ∅ ∅ false = ([["A", "B"]] : List (List String)).map List.toFinset ∧
    IsEnumOf [["A", "B"]] (reconcile [["A", "B"]] [] ∅ ∅ false) := by
  have h := reconcile_idempotent_pairs [["A", "B"]] (by decide)
  exact ⟨h.1, h.2.2 (by decide)⟩

/-- C7 (amended): the node/edge invariant (stored node set = set of labels of
current edges) holds for the default construction, is re-established by every
reconciliation commit and by node deletion, and is preserved by the session
operations; but `__init__` does NOT derive nodes from edges, so construction
with explicitly inconsistent arguments violates it:
see `init_nodes_invariant_cex`. -/
theorem nodes_invariant_ops :
    (mindMapInit none none).nodes = nodesOf (mindMapInit none none).edges ∧
    (∀ out conv le, (commitState out conv le).nodes = nodesOf (commitState out conv le).edges) ∧
    (∀ s n, (deleteNode s n).nodes = nodesOf (deleteNode s n).edges) ∧
    (∀ s query gen s2, AskInitRel s query gen s2 → s2.nodes = nodesOf s2.edges) ∧
    (∀ s sel txt gen s2, AskExtRel s sel txt gen s2 → s.nodes = nodesOf s.edges →
      s2.nodes = nodesOf s2.edges) := by
  refine ⟨rfl, fun out conv le => rfl, fun s n => rfl, ?_, ?_⟩
  · rintro s query gen s2 ⟨out, hout, rfl⟩
    rfl
  · intro s sel txt gen s2 hrel hs
    match sel, txt, hrel with
    | none, none, hrel => rw [hrel]; exact hs
    | some n, _, ⟨conv, out, hconv, hout, hs2⟩ => rw [hs2]; rfl
    | none, some tx, ⟨conv, out, hconv, hout, hs2⟩ => rw [hs2]; rfl

/-- C7 counterexample: constructing with explicit edges and defaulted nodes
leaves the stored node set empty while the edge labels are `{A, B}`. -/
theorem init_nodes_invariant_cex :
    (mindMapInit (some [["A", "B"]]) none).nodes ≠
      nodesOf (mindMapInit (some [["A", "B"]]) none).edges := by
  unfold mindMapInit nodesOf
  decide

/-- Witness for `nodes_invariant_ops`: the initial-generate conjunct applied
to a concrete run. -/
theorem nodes_invariant_ops_witness :
    (commitState [] (startConversation ++ [restartMsg "q", ⟨"assistant", ""⟩]) none).nodes =
      nodesOf (commitState [] (startConversation ++ [restartMsg "q", ⟨"assistant", ""⟩])
        none).edges :=
  nodes_invariant_ops.2.2.2.1 (mindMapInit none none) "q" ""
    (commitState [] (startConversation ++ [restartMsg "q", ⟨"assistant", ""⟩]) none)
    ⟨[], by unfold CommitRel; decide, rfl⟩

/-- C8 (amended): `ask_for_extended_graph` surfaces no `InvalidRequest` in
either misuse case.  With neither argument set it returns at once — before
reading the conversation attribute — mutating nothing and raising nothing,
on any state including a fresh object.  With BOTH arguments set it does not
error on any state whose conversation attribute exists (every state after an
initial generation): it proceeds exactly as expansion from the selected node
(the text argument is ignored) and DOES mutate state, appending the two
conversation turns.  On a fresh object, whose conversation attribute is
unset, the both-set call instead dies with `AttributeError` at line 125
before mutating anything, so it relates to no committed state. -/
theorem ask_ext_arg_behavior :
    (∀ s gen s2, AskExtRel s none none gen s2 ↔ s2 = s) ∧
    (∀ s n tx gen s2,
      AskExtRel s (some n) (some tx) gen s2 ↔ AskExtRel s (some n) none gen s2) ∧
    (∀ s n tx gen s2, AskExtRel s (some n) (some tx) gen s2 →
      ∃ conv, s.conversation = some conv ∧
        s2.conversation = some (conv ++ [expandMsg n, ⟨"assistant", gen⟩])) ∧
    (∀ s n tx gen s2, s.conversation = none →
      ¬AskExtRel s (some n) (some tx) gen s2) := by
  refine ⟨fun s gen s2 => Iff.rfl, fun s n tx gen s2 => Iff.rfl, ?_, ?_⟩
  · rintro s n tx gen s2 ⟨conv, out, hconv, hout, rfl⟩
    exact ⟨conv, hconv, rfl⟩
  · rintro s n tx gen s2 hnone ⟨conv, out, hconv, hout, rfl⟩
    rw [hnone] at hconv
    exact absurd hconv (by simp)

/-- C8 counterexample: a populated state reached by the code itself (an
initial generation from the fresh object — first conjunct) has its
conversation attribute set; calling with BOTH arguments set there has a
possible outcome, and every possible outcome differs from the input state
(two turns are appended) — so "mutates no state" is false at a reachable
input, and no error is surfaced (the call completes normally there). -/
theorem ask_ext_both_args_mutates_cex :
    AskInitRel (mindMapInit none none) "q" "add(\"A\", \"B\")"
      (commitState [["A", "B"]]
        (startConversation ++ [restartMsg "q", ⟨"assistant", "add(\"A\", \"B\")"⟩]) none) ∧
    (∃ s2, AskExtRel
      (commitState [["A", "B"]]
        (startConversation ++ [restartMsg "q", ⟨"assistant", "add(\"A\", \"B\")"⟩]) none)
      (some "A") (some "B") "" s2) ∧
    (∀ s2, AskExtRel
      (commitState [["A", "B"]]
        (startConversation ++ [restartMsg "q", ⟨"assistant", "add(\"A\", \"B\")"⟩]) none)
      (some "A") (some "B") "" s2 →
      s2 ≠ commitState [["A", "B"]]
        (startConversation ++ [restartMsg "q", ⟨"assistant", "add(\"A\", \"B\")"⟩]) none) := by
  refine ⟨⟨[["A", "B"]], by unfold CommitRel; decide, rfl⟩, ?_, ?_⟩
  · exact ⟨commitState [["A", "B"]]
      ((startConversation ++ [restartMsg "q", ⟨"assistant", "add(\"A\", \"B\")"⟩]) ++
        [expandMsg "A", ⟨"assistant", ""⟩]) (some "A"),
      startConversation ++ [restartMsg "q", ⟨"assistant", "add(\"A\", \"B\")"⟩],
      [["A", "B"]], rfl, by unfold CommitRel; decide, rfl⟩
  · rintro s2 ⟨conv, out, hconv, hout, rfl⟩ heq
    simp only [commitState, Option.some.injEq] at hconv
    have hc := congrArg MindMapState.conversation heq
    simp only [commitState, Option.some.injEq] at hc
    rw [hconv] at hc
    have hl := congrArg List.length hc
    simp only [List.length_append, List.length_cons, List.length_nil] at hl
    omega

/-- Witness for `ask_ext_arg_behavior`: the both-arguments conjunct applied
at a populated state (conversation attribute present), and the fresh-object
conjunct applied at the default construction, each with its hypotheses
discharged concretely. -/
theorem ask_ext_arg_behavior_witness :
    (∃ conv,
      (commitState [["A", "B"]]
        (startConversation ++ [restartMsg "q", ⟨"assistant", "add(\"A\", \"B\")"⟩])
        none).conversation = some conv ∧
      (commitState [["A", "B"]]
        ((startConversation ++ [restartMsg "q", ⟨"assistant", "add(\"A\", \"B\")"⟩]) ++
          [expandMsg "A", ⟨"assistant", ""⟩]) (some "A")).conversation =
        some (conv ++ [expandMsg "A", ⟨"assistant", ""⟩])) ∧
    ¬AskExtRel (mindMapInit none none) (some "A") (some "B") "x" (mindMapInit none none) :=
  ⟨ask_ext_arg_behavior.2.2.1
      (commitState [["A", "B"]]
        (startConversation ++ [restartMsg "q", ⟨"assistant", "add(\"A\", \"B\")"⟩]) none)
      "A" "B" ""
      (commitState [["A", "B"]]
        ((startConversation ++ [restartMsg "q", ⟨"assistant", "add(\"A\", \"B\")"⟩]) ++
          [expandMsg "A", ⟨"assistant", ""⟩]) (some "A"))
      ⟨startConversation ++ [restartMsg "q", ⟨"assistant", "add(\"A\", \"B\")"⟩],
        [["A", "B"]], rfl, by unfold CommitRel; decide, rfl⟩,
    ask_ext_arg_behavior.2.2.2 (mindMapInit none none) "A" "B" "x"
      (mindMapInit none none) rfl⟩

/-- C10: a two-argument `delete("X","X")` is skipped by the classification
loop (the `a == b` guard fires before the add/delete split), contributing to
no accumulator field, so parse-and-reconcile gives the same result on every
graph with or without it. -/
theorem selfloop_delete_noop (pre post : List Directive) (x : String)
    (current : List (List String)) (replace : Bool) :
    classify (pre ++ Directive.two "delete" x x :: post) = classify (pre ++ post) ∧
    reconcile current (classify (pre ++ Directive.two "delete" x x :: post)).newEdges
        (classify (pre ++ Directive.two "delete" x x :: post)).removeEdges
        (classify (pre ++ Directive.two "delete" x x :: post)).removeNodes replace =
      reconcile current (classify (pre ++ post)).newEdges (classify (pre ++ post)).removeEdges
        (classify (pre ++ post)).removeNodes replace := by
  have h := classify_selfloop_delete_skip pre post x
  exact ⟨h, by rw [h]⟩
